import Mathlib

/-!
Verification of the `graxinc/bytepool` bucketed byte-buffer pool
(the `BucketPool` / `BucketPooler` version, with the unclipped `Grow`
growth primitive and the lookahead/decay adaptive front end).

The embedding models a Go byte slice by its length and capacity only:
no claim under consideration depends on buffer contents.  Machine
counters (`atomic.Uint64`, `atomic.Int64`) are modelled as unbounded
`Nat` / `Int`: every counter in the program moves by single increments
or decays toward zero, so 64-bit wraparound is unreachable in any
execution the claims quantify over.  `float64` arithmetic in the decay
step (`math.RoundToEven(float64(v) * decay)`) is modelled exactly over
`ℚ`.  Panics are modelled by `Option`-valued operations (`none` =
panic).  `sync.Pool` is modelled as a LIFO free-list; this is one
admissible single-threaded behaviour of `sync.Pool` (it may also drop
items, which only shrinks free-lists and is irrelevant to the claims).
-/

/-- A Go byte slice abstracted to its length and capacity (the `B []byte`
field of `bytepool.Bytes`, contents dropped). -/
structure Buf where
  len : Nat
  cap : Nat
  deriving Repr, DecidableEq

/-- The small-object size classes of the Go memory allocator
(`runtime/sizeclasses.go`), which determine the capacity `append`
actually produces when it must reallocate.  The repository pins this
behaviour in its own `TestGrow` (capacities 8 and 16 for small grows),
see `growCap_matches_repo_tests` below. -/
def sizeClasses : List Nat :=
  [8, 16, 24, 32, 48, 64, 80, 96, 112, 128, 144, 160, 176, 192, 208, 224,
   240, 256, 288, 320, 352, 384, 416, 448, 480, 512, 576, 640, 704, 768,
   896, 1024, 1152, 1280, 1408, 1536, 1792, 2048, 2304, 2688, 3072, 3200,
   3456, 4096, 4864, 5376, 6144, 6528, 6784, 6912, 8192, 9472, 9728, 10240,
   10880, 12288, 13568, 14336, 16384, 18432, 19072, 20480, 21760, 24576,
   27264, 28672, 32768]

/-- Go runtime `roundupsize`: the allocation size actually used for a
requested byte count (small sizes round up to the next size class,
large sizes to a page multiple). -/
def roundupsize (n : Nat) : Nat :=
  match sizeClasses.find? (fun c => n ≤ c) with
  | some c => c
  | none => 8192 * ((n + 8191) / 8192)

/-- The large-capacity loop of Go runtime `nextslicecap` (grow by a
quarter above the 256 threshold until the needed length is reached;
the Go loop adds before testing). -/
def growCapLoop (newLen newcap : Nat) : Nat :=
  let next := newcap + (newcap + 3 * 256) / 4
  if newLen ≤ next then next
  else growCapLoop newLen next
termination_by newLen - newcap
decreasing_by
  have h4 : 192 ≤ (newcap + 3 * 256) / 4 := by
    rw [Nat.le_div_iff_mul_le (by norm_num)]
    omega
  simp only [] at *
  omega

/-- Go runtime `nextslicecap(newLen, oldCap)`: the pre-rounding capacity
chosen by `append` when growing a slice. -/
def nextslicecap (newLen oldCap : Nat) : Nat :=
  let doublecap := oldCap + oldCap
  if doublecap < newLen then newLen
  else if oldCap < 256 then doublecap
  else growCapLoop newLen oldCap

/-- Capacity produced by a reallocating `append` on a byte slice:
`roundupsize (nextslicecap needed oldCap)`. -/
def goAppendCap (oldCap newLen : Nat) : Nat := roundupsize (nextslicecap newLen oldCap)

/-- Capacity after the repository's `Grow(s, min)` (pool.go):
`s = s[:0]`; if `min < cap(s)` the slice is returned as is, otherwise
`append(s[:cap(s)], make([]byte, min-c)...)[:0]` reallocates only when
`min` exceeds the capacity (appending `min - cap` elements to a slice of
length `cap`).  The result always has length 0. -/
def growCap (cap0 : Nat) (minC : Int) : Nat :=
  if minC ≤ (cap0 : Int) then cap0
  else goAppendCap cap0 minC.toNat

/-- The repository's `Grow` applied to a buffer: length 0, capacity per
`growCap`. -/
def Buf.grow (b : Buf) (minC : Int) : Buf := ⟨0, growCap b.cap minC⟩

/-- Go `b.B = b.B[:length]`: valid only for `0 ≤ length ≤ cap`
(otherwise a slice-bounds panic). -/
def Buf.setLen (b : Buf) (l : Int) : Option Buf :=
  if 0 ≤ l ∧ l ≤ (b.cap : Int) then some { b with len := l.toNat } else none

/-- The repository's `makeSizedBytes(c)`: a fresh buffer with length 0
and capacity exactly `c` (only ever called with non-negative `c`). -/
def makeSizedBytes (c : Int) : Buf := ⟨0, c.toNat⟩

/-- One bucket (`sizedPool`): immutable size, `sync.Pool` free-list
modelled as a LIFO list, and hit/miss counters. -/
structure SizedPool where
  size : Nat
  freeList : List Buf
  hits : Nat
  misses : Nat
  deriving Repr, DecidableEq

def newSizedPool (size : Nat) : SizedPool := ⟨size, [], 0, 0⟩

/-- `sizedPool.getNoAlloc(c)`: panics (`none`) when `c > p.size`;
otherwise pops the free-list (`(none, p)` on a miss), counting a hit
and growing the popped buffer to capacity at least `c`. -/
def SizedPool.getNoAlloc (p : SizedPool) (c : Int) : Option (Option Buf × SizedPool) :=
  if (p.size : Int) < c then none
  else
    match p.freeList with
    | [] => some (none, p)
    | b :: rest =>
        some (some (b.grow c), { p with freeList := rest, hits := p.hits + 1 })

/-- `sizedPool.allocate(c)`: panics when `c > p.size`; otherwise a fresh
buffer of capacity `p.size` (when `c ≤ 0`) or exactly `c`, counting a
miss. -/
def SizedPool.allocate (p : SizedPool) (c : Int) : Option (Buf × SizedPool) :=
  if (p.size : Int) < c then none
  else
    let b := if c ≤ 0 then makeSizedBytes p.size else makeSizedBytes c
    some (b, { p with misses := p.misses + 1 })

/-- `sizedPool.get(c)`: `getNoAlloc` then `allocate` on a miss. -/
def SizedPool.get (p : SizedPool) (c : Int) : Option (Buf × SizedPool) :=
  match p.getNoAlloc c with
  | none => none
  | some (some b, p') => some (b, p')
  | some (none, p') => p'.allocate c

/-- `sizedPool.put(b)`: panics (`none`) when `cap(b.B) > p.size`;
otherwise resets the length to zero and pushes onto the free-list. -/
def SizedPool.put (p : SizedPool) (b : Buf) : Option SizedPool :=
  if p.size < b.cap then none
  else some { p with freeList := { b with len := 0 } :: p.freeList }

/-- The bucketed pool: ordered buckets plus the overflow counter and the
two bounded overflow-sample lists. -/
structure BucketPool where
  pools : List SizedPool
  overs : Nat
  getOvers : List Int
  putOvers : List Int
  deriving Repr, DecidableEq

/-- The bounded sample append used by `BucketPool.over`: drop the oldest
entry once the list is longer than 10, then append. -/
def oversAdd (s : List Int) (v : Int) : List Int :=
  (if 10 < s.length then s.tail else s) ++ [v]

/-- `BucketPool.over(over, isPut)`: bump the overflow counter and record
a bounded sample.  Single-threaded model: the sample spin-lock is always
free, so the sample is always recorded. -/
def BucketPool.over (p : BucketPool) (ov : Int) (isPut : Bool) : BucketPool :=
  let p := { p with overs := p.overs + 1 }
  if isPut then { p with putOvers := oversAdd p.putOvers ov }
  else { p with getOvers := oversAdd p.getOvers ov }

/-- `BucketPool.findPool(size)`: index and bucket of the first (hence,
for sorted sizes, smallest) bucket whose size is at least the request;
`none` when the request exceeds every bucket. -/
def findPool : List SizedPool → Int → Option (Nat × SizedPool)
  | [], _ => none
  | sp :: rest, c =>
      if c ≤ (sp.size : Int) then some (0, sp)
      else (findPool rest c).map (fun x => (x.1 + 1, x.2))

/-- `BucketPool.GetGrown(c)`: overflow allocation (with sample) past the
largest bucket, otherwise `get` from the resolved bucket. -/
def BucketPool.GetGrown (p : BucketPool) (c : Int) : Option (Buf × BucketPool) :=
  match findPool p.pools c with
  | none => some (makeSizedBytes c, p.over c false)
  | some (i, sp) =>
      match sp.get c with
      | none => none
      | some (b, sp') => some (b, { p with pools := p.pools.set i sp' })

/-- `BucketPool.GetFilled(length)`: like `GetGrown` but the returned
buffer's length is set to `length` (`b.B = b.B[:length]`). -/
def BucketPool.GetFilled (p : BucketPool) (length : Int) : Option (Buf × BucketPool) :=
  match findPool p.pools length with
  | none =>
      match (makeSizedBytes length).setLen length with
      | none => none
      | some b => some (b, p.over length false)
  | some (i, sp) =>
      match sp.get length with
      | none => none
      | some (b, sp') =>
          match b.setLen length with
          | none => none
          | some b' => some (b', { p with pools := p.pools.set i sp' })

/-- `BucketPool.Put(b)`: no-op on nil; otherwise route by the buffer's
capacity, recording an overflow-on-put sample and dropping the buffer
when its capacity exceeds every bucket. -/
def BucketPool.Put (p : BucketPool) (b : Option Buf) : Option BucketPool :=
  match b with
  | none => some p
  | some b =>
      match findPool p.pools (b.cap : Int) with
      | none => some (p.over (b.cap : Int) true)
      | some (i, sp) =>
          match sp.put b with
          | none => none
          | some sp' => some { p with pools := p.pools.set i sp' }

/-- Insertion step of the model of `slices.Sort` on the size list. -/
def insertAsc (x : Int) : List Int → List Int
  | [] => [x]
  | y :: rest => if x ≤ y then x :: y :: rest else y :: insertAsc x rest

/-- Model of `slices.Sort` (ascending) on the size list. -/
def sortAsc : List Int → List Int
  | [] => []
  | x :: rest => insertAsc x (sortAsc rest)

/-- Model of `slices.Compact`: collapse consecutive duplicates. -/
def compactList : List Int → List Int
  | [] => []
  | [a] => [a]
  | a :: b :: rest =>
      if a = b then compactList (b :: rest) else a :: compactList (b :: rest)

/-- `NewBucketFull(sizes)`: panics (`none`) on an empty size list or any
size below 1; otherwise sorts, dedupes, and builds one empty bucket per
size. -/
def newBucketFull (sizes : List Int) : Option BucketPool :=
  if sizes = [] ∨ sizes.any (fun s => s < 1) then none
  else some
    { pools := (compactList (sortAsc sizes)).map (fun s => newSizedPool s.toNat),
      overs := 0, getOvers := [], putOvers := [] }

/-- The repository's `TestGrow` table (bucketpool version): the model of
`Grow` reproduces every capacity the repository's own test demands,
including the allocator's over-allocation to size classes 8 and 16. -/
theorem growCap_matches_repo_tests :
    growCap 0 (-1) = 0 ∧ growCap 0 0 = 0 ∧ growCap 0 1 = 8 ∧
    growCap 0 8 = 8 ∧ growCap 0 9 = 16 ∧
    growCap 1 (-1) = 1 ∧ growCap 1 0 = 1 ∧ growCap 1 1 = 1 ∧
    growCap 1 2 = 8 ∧ growCap 1 8 = 8 ∧ growCap 1 9 = 16 ∧
    growCap 2 2 = 2 ∧ growCap 2 3 = 8 ∧ growCap 2 9 = 16 := by
  decide

/-- One histogram bin of the adaptive pooler (`histoBin`): decaying put
counter plus hit/miss/lookahead counters. -/
structure HistoBin where
  puts : Int
  hits : Nat
  hitsLookahead : Nat
  misses : Nat
  missesLookahead : Nat
  deriving Repr, DecidableEq

def emptyBin : HistoBin := ⟨0, 0, 0, 0, 0⟩

/-- The adaptive pooler state (`BucketPooler`): the shared pool, the
immutable tuning options, one bin per bucket, the default bucket index,
and the global put counter (which starts at `-9`). -/
structure BucketPooler where
  pool : BucketPool
  chooseInc : Int
  maxPoolPuts : Int
  decay : ℚ
  binChecks : Nat
  bins : List HistoBin
  defIdx : Nat
  puts : Int
  deriving Repr, DecidableEq

/-- Options to `BucketPool.Pooler` (`BucketPoolerOptions`), zero meaning
unset. -/
structure BucketPoolerOptions where
  chooseInc : Int
  decay : ℚ
  maxPoolPuts : Int
  binChecks : Int
  deriving Repr, DecidableEq

def defaultPoolerOptions : BucketPoolerOptions := ⟨0, 0, 0, 0⟩

/-- `BucketPool.Pooler(o)`: apply the defaults (1000 puts, decay 1/2,
100 × chooseInc, 4 bin checks), build one empty bin per bucket, and
start the put counter at `-9`. -/
def BucketPool.Pooler (p : BucketPool) (o : BucketPoolerOptions) : BucketPooler :=
  let chooseInc := if o.chooseInc ≤ 0 then 1000 else o.chooseInc
  let decay := if o.decay ≤ 0 then Rat.divInt 1 2 else o.decay
  let maxPoolPuts := if o.maxPoolPuts ≤ 0 then chooseInc * 100 else o.maxPoolPuts
  let binChecks := if o.binChecks ≤ 0 then 4 else o.binChecks
  let binChecks := max 1 binChecks
  { pool := p, chooseInc := chooseInc, maxPoolPuts := maxPoolPuts, decay := decay,
    binChecks := binChecks.toNat, bins := p.pools.map (fun _ => emptyBin),
    defIdx := 0, puts := -9 }

/-- Update the bin at an index, panicking (`none`) when the index is out
of range (a Go index-out-of-range panic). -/
def binsModify (bins : List HistoBin) (i : Nat) (f : HistoBin → HistoBin) :
    Option (List HistoBin) :=
  (bins.getD i emptyBin) |> fun _ =>
    if i < bins.length then some (bins.set i (f (bins.getD i emptyBin))) else none

def BucketPooler.GetGrown (g : BucketPooler) (c : Int) : Option (Buf × BucketPooler) :=
  (g.pool.GetGrown c).map (fun r => (r.1, { g with pool := r.2 }))

def BucketPooler.GetFilled (g : BucketPooler) (length : Int) : Option (Buf × BucketPooler) :=
  (g.pool.GetFilled length).map (fun r => (r.1, { g with pool := r.2 }))

/-- The lookahead loop of `BucketPooler.Get`: `i` counts attempts and is
bounded by the remaining `fuel` (initially `binChecks`); the loop breaks
(`some none`) past the end of the bin array or when every attempt
missed.  A hit pops the bucket at `defIdx + i`, credits lookahead
counters when `i > 0`, and credits a hit on the found bin. -/
def getLoop (g : BucketPooler) : Nat → Nat → Option (Option (Buf × BucketPooler))
  | 0, _ => some none
  | fuel + 1, i =>
      let idx := g.defIdx + i
      if g.bins.length ≤ idx then some none
      else
        match g.pool.pools.get? idx with
        | none => none
        | some sp =>
            match sp.getNoAlloc 0 with
            | none => none
            | some (none, _) => getLoop g fuel (i + 1)
            | some (some b, sp') =>
                let g1 := { g with pool := { g.pool with pools := g.pool.pools.set idx sp' } }
                let step1 : Option (List HistoBin) :=
                  if 0 < i then
                    (binsModify g1.bins idx
                        (fun bin => { bin with hitsLookahead := bin.hitsLookahead + 1 })).bind
                      (fun bs => binsModify bs g1.defIdx
                        (fun bin => { bin with missesLookahead := bin.missesLookahead + 1 }))
                  else some g1.bins
                match step1 with
                | none => none
                | some bs =>
                    match binsModify bs idx (fun bin => { bin with hits := bin.hits + 1 }) with
                    | none => none
                    | some bs' => some (some (b, { g1 with bins := bs' }))

/-- `BucketPooler.Get()`: lookahead scan from the default index, falling
back to an allocation from the default bucket (counting a miss on the
default bin). -/
def BucketPooler.Get (g : BucketPooler) : Option (Buf × BucketPooler) :=
  match getLoop g g.binChecks 0 with
  | none => none
  | some (some r) => some r
  | some none =>
      match g.pool.pools.get? g.defIdx with
      | none => none
      | some sp =>
          match sp.allocate 0 with
          | none => none
          | some (b, sp') =>
              let g1 := { g with pool := { g.pool with pools := g.pool.pools.set g.defIdx sp' } }
              match binsModify g1.bins g1.defIdx
                  (fun bin => { bin with misses := bin.misses + 1 }) with
              | none => none
              | some bs => some (b, { g1 with bins := bs })

/-- The scan of `BucketPooler.chooseDefPool`: running maximum starting
at `-1` with best index 0, strict improvement required (so the first
maximum wins). -/
def chooseScan : List HistoBin → Nat → Int → Nat → Nat
  | [], _, _, best => best
  | bin :: rest, i, maxP, best =>
      if maxP < bin.puts then chooseScan rest (i + 1) bin.puts i
      else chooseScan rest (i + 1) maxP best

/-- `BucketPooler.chooseDefPool()`: store the index of the bin with the
highest put counter. -/
def BucketPooler.chooseDefPool (g : BucketPooler) : BucketPooler :=
  { g with defIdx := chooseScan g.bins 0 (-1) 0 }

/-- Go `math.RoundToEven(float64(v) * decay)` modelled exactly: the
rational `v * decay` equals `(v * decay.num) / decay.den` with a
positive denominator, so its floor is the euclidean quotient and the
tie test compares twice the remainder with the denominator.  Round to
the nearest integer, ties to the even neighbour. -/
def roundToEvenMul (v : Int) (d : ℚ) : Int :=
  let n := v * d.num
  let m := (d.den : Int)
  let f := n / m
  let r2 := 2 * (n % m)
  if r2 < m then f
  else if m < r2 then f + 1
  else if f % 2 = 0 then f else f + 1

/-- Round half to even on `ℚ` stated with the mathematical floor (the
spec-side description of `math.RoundToEven`); `roundToEvenMul` computes
it, see `roundToEvenMul_eq`. -/
def roundToEven (q : ℚ) : Int :=
  if q - Int.floor q < 1 / 2 then Int.floor q
  else if 1 / 2 < q - Int.floor q then Int.floor q + 1
  else if Int.floor q % 2 = 0 then Int.floor q else Int.floor q + 1

/-- `BucketPooler.reducePuts()`: replace every bin's put counter by
`min(roundToEven(puts × decay), maxPoolPuts)`.  The CAS retry loop of
the source always succeeds on the first attempt in the single-threaded
model. -/
def BucketPooler.reducePuts (g : BucketPooler) : BucketPooler :=
  { g with bins := g.bins.map (fun bin =>
      { bin with puts := min (roundToEvenMul bin.puts g.decay) g.maxPoolPuts }) }

/-- `BucketPooler.Put(b)`: no-op on nil; otherwise bin the buffer by its
length, bump the global counter, possibly recompute the default bucket
and decay the bins, and finally (the deferred call) release the buffer
to the shared pool. -/
def BucketPooler.Put (g : BucketPooler) (b : Option Buf) : Option BucketPooler :=
  match b with
  | none => some g
  | some b =>
      let finish : BucketPooler → Option BucketPooler := fun g' =>
        (g'.pool.Put (some b)).map (fun p' => { g' with pool := p' })
      match findPool g.pool.pools (b.len : Int) with
      | none => finish g
      | some (idx, _) =>
          match binsModify g.bins idx (fun bin => { bin with puts := bin.puts + 1 }) with
          | none => none
          | some bins1 =>
              let g1 := { g with bins := bins1 }
              let inc := g1.puts + 1
              let g2 := { g1 with puts := inc }
              if 0 < inc ∧ inc ≠ g2.chooseInc then finish g2
              else
                let g3 := g2.chooseDefPool
                let g4 := g3.reducePuts
                let g5 := if 0 < inc then { g4 with puts := 0 } else g4
                finish g5

/-- The put counter of the bin at an index (default 0 out of range). -/
def binPutsAt (bins : List HistoBin) (j : Nat) : Int := (bins.getD j emptyBin).puts

/-- Total in-range bin update (used to state what `BucketPooler.Get`
and `BucketPooler.Put` do to the bins). -/
def binBump (bins : List HistoBin) (i : Nat) (f : HistoBin → HistoBin) : List HistoBin :=
  bins.set i (f (bins.getD i emptyBin))

/-- Spec-side test for the lookahead scan of `BucketPooler.Get`: the
bucket at `idx` is inside the bin array and its free-list holds a
buffer. -/
def bucketHasBuf (g : BucketPooler) (idx : Nat) : Bool :=
  decide (idx < g.bins.length) &&
    (match g.pool.pools.get? idx with
     | some sp => !sp.freeList.isEmpty
     | none => false)

/-- Spec-side scan: the first offset (at most `fuel` more attempts,
starting at offset `i`) whose bucket yields a buffer. -/
def firstHitAux (g : BucketPooler) : Nat → Nat → Option Nat
  | 0, _ => none
  | fuel + 1, i => if bucketHasBuf g (g.defIdx + i) then some i else firstHitAux g fuel (i + 1)

/-- Spec-side description of the lookahead scan of `BucketPooler.Get`:
the first offset `i < binChecks`, scanning forward from `defIdx`, whose
bucket has a buffer available (`none` when the scan falls off the end
of the bucket array or every scanned bucket is empty). -/
def firstHitOffset (g : BucketPooler) : Option Nat := firstHitAux g g.binChecks 0

/-- The free-list invariant of the buckets: every pooled buffer has
length 0 and capacity at most its bucket's size. -/
def PoolInv (p : BucketPool) : Prop :=
  ∀ sp ∈ p.pools, ∀ b ∈ sp.freeList, b.len = 0 ∧ b.cap ≤ sp.size

/-- States of a pooler (and its underlying bucket pool) reachable
through the public API: construction, `GetGrown`, `GetFilled`, the
pool-level `Put` of an arbitrary caller buffer, and the pooler's
`Get` / `Put`. -/
inductive Reachable : BucketPooler → Prop
  | init (sizes : List Int) (o : BucketPoolerOptions) (p : BucketPool) :
      newBucketFull sizes = some p → Reachable (p.Pooler o)
  | getGrown (g g' : BucketPooler) (c : Int) (b : Buf) :
      Reachable g → g.GetGrown c = some (b, g') → Reachable g'
  | getFilled (g g' : BucketPooler) (c : Int) (b : Buf) :
      Reachable g → g.GetFilled c = some (b, g') → Reachable g'
  | poolPut (g : BucketPooler) (b : Buf) (p' : BucketPool) :
      Reachable g → b.len ≤ b.cap → g.pool.Put (some b) = some p' →
      Reachable { g with pool := p' }
  | poolerGet (g g' : BucketPooler) (b : Buf) :
      Reachable g → g.Get = some (b, g') → Reachable g'
  | poolerPut (g g' : BucketPooler) (b : Buf) :
      Reachable g → b.len ≤ b.cap → g.Put (some b) = some g' → Reachable g'

theorem findPool_eq_none (pools : List SizedPool) (c : Int)
    (h : ∀ sp ∈ pools, (sp.size : Int) < c) : findPool pools c = none := by
  induction pools with
  | nil => rfl
  | cons sp rest ih =>
      have h1 : ¬ c ≤ (sp.size : Int) := by
        have := h sp (by simp)
        omega
      have h2 : findPool rest c = none := ih (fun x hx => h x (by simp [hx]))
      simp [findPool, h1, h2]

theorem findPool_some_facts (pools : List SizedPool) (c : Int) :
    ∀ (i : Nat) (sp : SizedPool), findPool pools c = some (i, sp) →
      pools.get? i = some sp ∧ c ≤ (sp.size : Int) := by
  induction pools with
  | nil => intro i sp h; simp [findPool] at h
  | cons sp0 rest ih =>
      intro i sp h
      simp only [findPool] at h
      by_cases h0 : c ≤ (sp0.size : Int)
      · rw [if_pos h0] at h
        have h1 : i = 0 ∧ sp0 = sp := by
          constructor
          · exact (Prod.mk.injEq _ _ _ _ ▸ (Option.some.injEq _ _ ▸ h)).1.symm ▸ rfl
          · exact ((Prod.mk.injEq _ _ _ _ ▸ (Option.some.injEq _ _ ▸ h))).2
        obtain ⟨rfl, rfl⟩ := h1
        exact ⟨rfl, h0⟩
      · rw [if_neg h0] at h
        cases hf : findPool rest c with
        | none => rw [hf] at h; simp at h
        | some x =>
            rw [hf] at h
            simp only [Option.map_some', Option.some.injEq] at h
            obtain ⟨hx1, hx2⟩ := Prod.mk.injEq _ _ _ _ ▸ h
            obtain ⟨hg, hc⟩ := ih x.1 x.2 hf
            subst hx1 hx2
            exact ⟨by simpa using hg, hc⟩

theorem findPool_exists (pools : List SizedPool) (c : Int)
    (h : ∃ sp ∈ pools, c ≤ (sp.size : Int)) :
    ∃ i sp, findPool pools c = some (i, sp) := by
  induction pools with
  | nil => simp at h
  | cons sp0 rest ih =>
      by_cases h0 : c ≤ (sp0.size : Int)
      · exact ⟨0, sp0, by simp [findPool, h0]⟩
      · obtain ⟨sp, hmem, hle⟩ := h
        have hmem' : sp ∈ rest := by
          cases hmem with
          | head => exact absurd hle h0
          | tail _ hm => exact hm
        obtain ⟨i, sp', hf⟩ := ih ⟨sp, hmem', hle⟩
        exact ⟨i + 1, sp', by simp [findPool, h0, hf]⟩

theorem growCapLoop_ge (newLen newcap : Nat) : newLen ≤ growCapLoop newLen newcap := by
  rw [growCapLoop]
  by_cases h : newLen ≤ newcap + (newcap + 3 * 256) / 4
  · simp [h]
  · simpa [h] using growCapLoop_ge newLen (newcap + (newcap + 3 * 256) / 4)
termination_by newLen - newcap
decreasing_by
  have h4 : 192 ≤ (newcap + 3 * 256) / 4 := by
    rw [Nat.le_div_iff_mul_le (by norm_num)]
    omega
  omega

theorem nextslicecap_ge (newLen oldCap : Nat) : newLen ≤ nextslicecap newLen oldCap := by
  unfold nextslicecap
  by_cases h1 : oldCap + oldCap < newLen
  · simp [h1]
  · by_cases h2 : oldCap < 256
    · simp [h1, h2]; omega
    · simp only [h1, h2, if_false]
      exact growCapLoop_ge newLen oldCap

theorem roundupsize_ge (n : Nat) : n ≤ roundupsize n := by
  unfold roundupsize
  cases hf : sizeClasses.find? (fun c => n ≤ c) with
  | some c =>
      have := List.find?_some hf
      simpa using this
  | none =>
      show n ≤ 8192 * ((n + 8191) / 8192)
      have hdm := Nat.div_add_mod (n + 8191) 8192
      have hlt : (n + 8191) % 8192 < 8192 := Nat.mod_lt _ (by norm_num)
      omega

theorem growCap_ge (cap0 : Nat) (minC : Int) : minC ≤ (growCap cap0 minC : Int) := by
  unfold growCap
  by_cases h : minC ≤ (cap0 : Int)
  · simp [h]
  · rw [if_neg h]
    have h1 : (minC.toNat : Int) = minC := Int.toNat_of_nonneg (by omega)
    have h2 : minC.toNat ≤ goAppendCap cap0 minC.toNat :=
      le_trans (nextslicecap_ge _ _) (roundupsize_ge _)
    omega

/-- C9: releasing a nil buffer is a safe no-op: both `BucketPool.Put`
and `BucketPooler.Put` return (no panic) with the state — every
counter, bin, and free-list — exactly unchanged. -/
theorem put_nil_noop (p : BucketPool) (g : BucketPooler) :
    BucketPool.Put p none = some p ∧ BucketPooler.Put g none = some g :=
  ⟨rfl, rfl⟩

/-- C2: a `GetGrown` request strictly larger than every configured
bucket returns (no error) a directly allocated buffer of length 0 and
capacity exactly the request, leaves every bucket (hence every
free-list) untouched, increments the overflow counter by one, and
records a get-side overflow sample. -/
theorem getGrown_overflow (p : BucketPool) (s : Int)
    (hover : ∀ sp ∈ p.pools, (sp.size : Int) < s) (hpos : 0 < s) :
    ∃ b p', p.GetGrown s = some (b, p') ∧ b.len = 0 ∧ (b.cap : Int) = s ∧
      p'.pools = p.pools ∧ p'.overs = p.overs + 1 ∧
      p'.getOvers = oversAdd p.getOvers s ∧ p'.putOvers = p.putOvers := by
  refine ⟨makeSizedBytes s, p.over s false, ?_, rfl, ?_, ?_, ?_, ?_, ?_⟩
  · simp [BucketPool.GetGrown, findPool_eq_none p.pools s hover]
  · simp [makeSizedBytes, Int.toNat_of_nonneg (le_of_lt hpos)]
  · simp [BucketPool.over]
  · simp [BucketPool.over]
  · simp [BucketPool.over]
  · simp [BucketPool.over]

/-- Witness for C2 on a one-bucket pool of size 4 with request 5. -/
theorem getGrown_overflow_witness :
    ∃ b p', BucketPool.GetGrown ⟨[⟨4, [], 0, 0⟩], 0, [], []⟩ 5 = some (b, p') ∧
      b.len = 0 ∧ (b.cap : Int) = 5 ∧
      p'.pools = [⟨4, [], 0, 0⟩] ∧ p'.overs = 0 + 1 ∧
      p'.getOvers = oversAdd [] 5 ∧ p'.putOvers = [] :=
  getGrown_overflow ⟨[⟨4, [], 0, 0⟩], 0, [], []⟩ 5 (by decide) (by decide)

/-- C7: `BucketPool.Put` of a non-nil buffer routes by the buffer's
capacity: overflow-on-put sample (and drop, buckets unchanged) when the
capacity exceeds every bucket, otherwise the buffer is pushed onto the
resolved bucket's free-list with its length reset to zero.  The second
conjunct shows the length plays no role; the third that the overflow
path stores nothing in any free-list. -/
theorem bucketPool_put_by_capacity (p : BucketPool) (b : Buf) :
    (BucketPool.Put p (some b) =
      match findPool p.pools (b.cap : Int) with
      | none => some (p.over (b.cap : Int) true)
      | some (i, sp) =>
          some { p with
            pools := p.pools.set i { sp with freeList := ⟨0, b.cap⟩ :: sp.freeList } }) ∧
    (∀ l : Nat, BucketPool.Put p (some b) = BucketPool.Put p (some ⟨l, b.cap⟩)) ∧
    (p.over (b.cap : Int) true).pools = p.pools := by
  refine ⟨?_, ?_, by simp [BucketPool.over]⟩
  · cases hf : findPool p.pools (b.cap : Int) with
    | none => simp [BucketPool.Put, hf]
    | some x =>
        obtain ⟨i, sp⟩ := x
        obtain ⟨-, hle⟩ := findPool_some_facts p.pools (b.cap : Int) i sp hf
        have hput : sp.put b = some { sp with freeList := ⟨0, b.cap⟩ :: sp.freeList } := by
          unfold SizedPool.put
          rw [if_neg (by omega)]
        simp [BucketPool.Put, hf, hput]
  · intro l
    cases hf : findPool p.pools (b.cap : Int) with
    | none => simp [BucketPool.Put, hf]
    | some x =>
        obtain ⟨i, sp⟩ := x
        obtain ⟨-, hle⟩ := findPool_some_facts p.pools (b.cap : Int) i sp hf
        have hput : sp.put b = some { sp with freeList := ⟨0, b.cap⟩ :: sp.freeList } := by
          unfold SizedPool.put
          rw [if_neg (by omega)]
        have hput2 : sp.put ⟨l, b.cap⟩ =
            some { sp with freeList := ⟨0, b.cap⟩ :: sp.freeList } := by
          show (if sp.size < b.cap then (none : Option SizedPool) else
              some ⟨sp.size, ⟨0, b.cap⟩ :: sp.freeList, sp.hits, sp.misses⟩) =
            some ⟨sp.size, ⟨0, b.cap⟩ :: sp.freeList, sp.hits, sp.misses⟩
          rw [if_neg (by omega)]
        simp [BucketPool.Put, hf, hput, hput2]

/-- C10: a pooler-level `Put` of a buffer whose length exceeds every
bucket size skips all histogram work — bins, the global put counter,
and the default index are untouched, and no recomputation or decay
runs — while the buffer is still forwarded to the underlying
`BucketPool.Put` (which classifies it by capacity). -/
theorem pooler_put_oversize_len_frame (g : BucketPooler) (b : Buf)
    (hbig : ∀ sp ∈ g.pool.pools, (sp.size : Int) < (b.len : Int)) :
    BucketPooler.Put g (some b) =
      (g.pool.Put (some b)).map (fun p' => { g with pool := p' }) := by
  simp only [BucketPooler.Put, findPool_eq_none _ _ hbig]

/-- Witness for C10: a pooler over a single bucket of size 4 given a
buffer of length 5. -/
theorem pooler_put_oversize_len_frame_witness :
    BucketPooler.Put (BucketPool.Pooler ⟨[⟨4, [], 0, 0⟩], 0, [], []⟩ defaultPoolerOptions)
        (some ⟨5, 5⟩) =
      ((BucketPool.Pooler ⟨[⟨4, [], 0, 0⟩], 0, [], []⟩ defaultPoolerOptions).pool.Put
          (some ⟨5, 5⟩)).map
        (fun p' =>
          { BucketPool.Pooler ⟨[⟨4, [], 0, 0⟩], 0, [], []⟩ defaultPoolerOptions with
            pool := p' }) :=
  pooler_put_oversize_len_frame _ ⟨5, 5⟩ (by decide)

/-- C1 (amended): for any request at most the largest configured bucket
size, `GetGrown` succeeds and returns a buffer with length 0 and
capacity at least the request.  The claimed upper bound (capacity at
most the containing bucket's size) does not hold in general: growing a
pooled buffer reallocates with allocator slack that is not clipped to
the bucket size — see `getGrown_cap_exceeds_bucket`. -/
theorem getGrown_len_zero_cap_ge (p : BucketPool) (s : Int) (hne : p.pools ≠ [])
    (hs : s ≤ ((p.pools.getLast hne).size : Int)) :
    ∃ b p', p.GetGrown s = some (b, p') ∧ b.len = 0 ∧ s ≤ (b.cap : Int) := by
  have hex : ∃ sp ∈ p.pools, s ≤ (sp.size : Int) :=
    ⟨p.pools.getLast hne, List.getLast_mem hne, hs⟩
  obtain ⟨i, sp, hf⟩ := findPool_exists p.pools s hex
  obtain ⟨-, hle⟩ := findPool_some_facts p.pools s i sp hf
  have hng : ¬ ((sp.size : Int) < s) := by omega
  cases hfl : sp.freeList with
  | nil =>
      by_cases hc : s ≤ 0
      · refine ⟨makeSizedBytes sp.size,
          { p with pools := p.pools.set i { sp with misses := sp.misses + 1 } }, ?_, rfl, ?_⟩
        · simp [BucketPool.GetGrown, hf, SizedPool.get, SizedPool.getNoAlloc, hng, hfl,
                SizedPool.allocate, hc]
        · simp only [makeSizedBytes]
          have : ((sp.size : Int)).toNat = sp.size := by omega
          omega
      · refine ⟨makeSizedBytes s,
          { p with pools := p.pools.set i { sp with misses := sp.misses + 1 } }, ?_, rfl, ?_⟩
        · simp [BucketPool.GetGrown, hf, SizedPool.get, SizedPool.getNoAlloc, hng, hfl,
                SizedPool.allocate, hc]
        · simp only [makeSizedBytes]
          rw [Int.toNat_of_nonneg (by omega : (0:Int) ≤ s)]
  | cons b0 rest =>
      refine ⟨b0.grow s,
        { p with pools := p.pools.set i { sp with freeList := rest, hits := sp.hits + 1 } },
        ?_, rfl, growCap_ge b0.cap s⟩
      simp [BucketPool.GetGrown, hf, SizedPool.get, SizedPool.getNoAlloc, hng, hfl]

/-- Witness for the amended C1 on a one-bucket pool of size 4 with
request 3. -/
theorem getGrown_len_zero_cap_ge_witness :
    ∃ b p', BucketPool.GetGrown ⟨[⟨4, [], 0, 0⟩], 0, [], []⟩ 3 = some (b, p') ∧
      b.len = 0 ∧ 3 ≤ (b.cap : Int) :=
  getGrown_len_zero_cap_ge ⟨[⟨4, [], 0, 0⟩], 0, [], []⟩ 3 (by decide) (by decide)

/-- C1 counterexample: on the pool built from sizes `[4]`, allocate with
`GetGrown 3` (capacity exactly 3), release it (free-list of the size-4
bucket now holds a capacity-3 buffer), then request `GetGrown 4`.  The
pooled buffer must grow from capacity 3 to at least 4, and the
reallocating `append` produces capacity 8 (Go doubles 3 to 6 and rounds
up to the size class 8) — strictly larger than the size 4 of the
smallest (only) bucket covering the request, contradicting the claimed
upper bound `capacity ≤ bucketSizeContaining(s)`. -/
theorem getGrown_cap_exceeds_bucket :
    ((newBucketFull [4]).bind (fun p0 =>
      (p0.GetGrown 3).bind (fun r1 =>
      (BucketPool.Put r1.2 (some r1.1)).bind (fun p2 =>
      (p2.GetGrown 4).map (fun r2 =>
        (r2.1, (findPool p2.pools 4).map (fun x => x.2.size)))))))
      = some (⟨0, 8⟩, some 4) ∧ ¬ (8 : Nat) ≤ 4 := by
  constructor
  · decide
  · decide

theorem chooseScan_go (bins : List HistoBin) (i : Nat) (maxP : Int) (best : Nat)
    (hi : i ≤ bins.length) (hb : best < i) (hm : maxP = binPutsAt bins best)
    (hle : ∀ j, j < i → binPutsAt bins j ≤ maxP)
    (hlt : ∀ j, j < best → binPutsAt bins j < maxP) :
    chooseScan (bins.drop i) i maxP best < bins.length ∧
    (∀ j, j < bins.length →
      binPutsAt bins j ≤ binPutsAt bins (chooseScan (bins.drop i) i maxP best)) ∧
    (∀ j, j < chooseScan (bins.drop i) i maxP best →
      binPutsAt bins j < binPutsAt bins (chooseScan (bins.drop i) i maxP best)) := by
  by_cases hlen : i < bins.length
  · have hdrop : bins.drop i = bins[i] :: bins.drop (i + 1) := List.drop_eq_getElem_cons hlen
    have hput_i : bins[i].puts = binPutsAt bins i := by
      unfold binPutsAt
      rw [List.getD_eq_getElem bins emptyBin hlen]
    rw [hdrop]
    by_cases hgt : maxP < bins[i].puts
    · simp only [chooseScan, if_pos hgt]
      refine chooseScan_go bins (i + 1) bins[i].puts i hlen (by omega) hput_i ?_ ?_
      · intro j hj
        rcases Nat.lt_succ_iff_lt_or_eq.mp hj with hj' | rfl
        · exact le_of_lt (lt_of_le_of_lt (hle j hj') hgt)
        · exact le_of_eq hput_i.symm
      · intro j hj
        exact lt_of_le_of_lt (hle j hj) hgt
    · simp only [chooseScan, if_neg hgt]
      refine chooseScan_go bins (i + 1) maxP best hlen (by omega) hm ?_ hlt
      intro j hj
      rcases Nat.lt_succ_iff_lt_or_eq.mp hj with hj' | rfl
      · exact hle j hj'
      · exact hput_i ▸ not_lt.mp hgt
  · have hieq : i = bins.length := by omega
    have hdrop : bins.drop i = [] := by rw [hieq]; exact List.drop_length bins
    rw [hdrop]
    simp only [chooseScan]
    refine ⟨by omega, ?_, ?_⟩
    · intro j hj
      exact hm ▸ hle j (by omega)
    · intro j hj
      exact hm ▸ hlt j hj
termination_by bins.length - i

/-- C5: when recomputation runs, `chooseDefPool` sets the default index
to a valid bin index whose put counter is maximal over all bins, and
every bin at a strictly smaller index has a strictly smaller counter —
the first maximum found scanning in index order wins ties. -/
theorem chooseDefPool_first_max (g : BucketPooler) (hne : g.bins ≠ [])
    (hnn : ∀ bin ∈ g.bins, 0 ≤ bin.puts) :
    g.chooseDefPool.defIdx < g.bins.length ∧
    (∀ j, j < g.bins.length →
      binPutsAt g.bins j ≤ binPutsAt g.bins g.chooseDefPool.defIdx) ∧
    (∀ j, j < g.chooseDefPool.defIdx →
      binPutsAt g.bins j < binPutsAt g.bins g.chooseDefPool.defIdx) := by
  obtain ⟨b0, rest, hbins⟩ := List.exists_cons_of_ne_nil hne
  have h0 : 0 < g.bins.length := by rw [hbins]; simp
  have hstep : g.chooseDefPool.defIdx
      = chooseScan (g.bins.drop 1) 1 (binPutsAt g.bins 0) 0 := by
    have hpos : (-1 : Int) < b0.puts := by
      have := hnn b0 (by rw [hbins]; simp)
      omega
    show chooseScan g.bins 0 (-1) 0 = _
    rw [hbins]
    simp only [chooseScan, if_pos hpos, List.drop_succ_cons, List.drop_zero]
    rfl
  have hmain := chooseScan_go g.bins 1 (binPutsAt g.bins 0) 0 h0 (by omega) rfl
    (fun j hj => by
      have hj0 : j = 0 := by omega
      subst hj0
      exact le_refl _)
    (fun j hj => absurd hj (Nat.not_lt_zero j))
  rw [hstep]
  exact hmain

/-- Witness for C5 on a pooler with bin counters `[2, 5]`: the chosen
default index is 1. -/
theorem chooseDefPool_first_max_witness :
    (BucketPooler.chooseDefPool
        ⟨⟨[⟨4, [], 0, 0⟩, ⟨8, [], 0, 0⟩], 0, [], []⟩, 1000, 100000, Rat.divInt 1 2, 4,
          [⟨2, 0, 0, 0, 0⟩, ⟨5, 0, 0, 0, 0⟩], 0, -9⟩).defIdx
        < [HistoBin.mk 2 0 0 0 0, HistoBin.mk 5 0 0 0 0].length ∧
    (∀ j, j < [HistoBin.mk 2 0 0 0 0, HistoBin.mk 5 0 0 0 0].length →
      binPutsAt [HistoBin.mk 2 0 0 0 0, HistoBin.mk 5 0 0 0 0] j ≤
        binPutsAt [HistoBin.mk 2 0 0 0 0, HistoBin.mk 5 0 0 0 0]
          (BucketPooler.chooseDefPool
            ⟨⟨[⟨4, [], 0, 0⟩, ⟨8, [], 0, 0⟩], 0, [], []⟩, 1000, 100000, Rat.divInt 1 2, 4,
              [⟨2, 0, 0, 0, 0⟩, ⟨5, 0, 0, 0, 0⟩], 0, -9⟩).defIdx) ∧
    (∀ j, j < (BucketPooler.chooseDefPool
            ⟨⟨[⟨4, [], 0, 0⟩, ⟨8, [], 0, 0⟩], 0, [], []⟩, 1000, 100000, Rat.divInt 1 2, 4,
              [⟨2, 0, 0, 0, 0⟩, ⟨5, 0, 0, 0, 0⟩], 0, -9⟩).defIdx →
      binPutsAt [HistoBin.mk 2 0 0 0 0, HistoBin.mk 5 0 0 0 0] j <
        binPutsAt [HistoBin.mk 2 0 0 0 0, HistoBin.mk 5 0 0 0 0]
          (BucketPooler.chooseDefPool
            ⟨⟨[⟨4, [], 0, 0⟩, ⟨8, [], 0, 0⟩], 0, [], []⟩, 1000, 100000, Rat.divInt 1 2, 4,
              [⟨2, 0, 0, 0, 0⟩, ⟨5, 0, 0, 0, 0⟩], 0, -9⟩).defIdx) :=
  chooseDefPool_first_max
    ⟨⟨[⟨4, [], 0, 0⟩, ⟨8, [], 0, 0⟩], 0, [], []⟩, 1000, 100000, Rat.divInt 1 2, 4,
      [⟨2, 0, 0, 0, 0⟩, ⟨5, 0, 0, 0, 0⟩], 0, -9⟩ (by decide) (by decide)

theorem roundToEvenMul_eq (v : Int) (d : ℚ) :
    roundToEvenMul v d = roundToEven ((v : ℚ) * d) := by
  have hm : (0 : Int) < (d.den : Int) := by exact_mod_cast d.pos
  have hmQ : (0 : ℚ) < ((d.den : Int) : ℚ) := by exact_mod_cast hm
  have hq : (v : ℚ) * d = ((v * d.num : Int) : ℚ) / ((d.den : Nat) : ℚ) := by
    conv_lhs => rw [← Rat.num_div_den d]
    push_cast
    ring
  have hfl : Int.floor ((v : ℚ) * d) = (v * d.num) / (d.den : Int) := by
    rw [hq]
    exact_mod_cast Rat.floor_intCast_div_natCast (v * d.num) d.den
  have hmod := Int.ediv_add_emod (v * d.num) (d.den : Int)
  have hfrac : (v : ℚ) * d - ((v * d.num) / (d.den : Int) : Int) =
      ((v * d.num % (d.den : Int) : Int) : ℚ) / ((d.den : Int) : ℚ) := by
    rw [hq, eq_div_iff (ne_of_gt hmQ)]
    have hc : (((d.den : Int) * (v * d.num / (d.den : Int)) + v * d.num % (d.den : Int) : Int) : ℚ)
        = ((v * d.num : Int) : ℚ) := by
      exact_mod_cast congrArg (fun z : Int => (z : ℚ)) hmod
    push_cast at hc ⊢
    rw [sub_mul, div_mul_cancel₀]
    · linarith
    · exact ne_of_gt (by exact_mod_cast hm)
  have hlt_iff : ((v : ℚ) * d - ((v * d.num) / (d.den : Int) : Int) < 1 / 2) ↔
      (2 * (v * d.num % (d.den : Int)) < (d.den : Int)) := by
    rw [hfrac, div_lt_div_iff₀ hmQ (by norm_num : (0:ℚ) < 2)]
    constructor
    · intro h
      have h' : ((2 * (v * d.num % (d.den : Int)) : Int) : ℚ) < (((d.den : Int) : Int) : ℚ) := by
        push_cast at h ⊢
        linarith
      exact_mod_cast h'
    · intro h
      have h' : ((2 * (v * d.num % (d.den : Int)) : Int) : ℚ) < (((d.den : Int) : Int) : ℚ) := by
        exact_mod_cast h
      push_cast at h' ⊢
      linarith
  have hgt_iff : (1 / 2 < (v : ℚ) * d - ((v * d.num) / (d.den : Int) : Int)) ↔
      ((d.den : Int) < 2 * (v * d.num % (d.den : Int))) := by
    rw [hfrac, div_lt_div_iff₀ (by norm_num : (0:ℚ) < 2) hmQ]
    constructor
    · intro h
      have h' : (((d.den : Int) : Int) : ℚ) < ((2 * (v * d.num % (d.den : Int)) : Int) : ℚ) := by
        push_cast at h ⊢
        linarith
      exact_mod_cast h'
    · intro h
      have h' : (((d.den : Int) : Int) : ℚ) < ((2 * (v * d.num % (d.den : Int)) : Int) : ℚ) := by
        exact_mod_cast h
      push_cast at h' ⊢
      linarith
  show (if 2 * (v * d.num % (d.den : Int)) < (d.den : Int) then (v * d.num) / (d.den : Int)
      else if (d.den : Int) < 2 * (v * d.num % (d.den : Int)) then (v * d.num) / (d.den : Int) + 1
      else if (v * d.num) / (d.den : Int) % 2 = 0 then (v * d.num) / (d.den : Int)
      else (v * d.num) / (d.den : Int) + 1) = roundToEven ((v : ℚ) * d)
  unfold roundToEven
  rw [hfl]
  by_cases h1 : 2 * (v * d.num % (d.den : Int)) < (d.den : Int)
  · rw [if_pos h1, if_pos (hlt_iff.mpr h1)]
  · rw [if_neg h1, if_neg (fun hc => h1 (hlt_iff.mp hc))]
    by_cases h2 : (d.den : Int) < 2 * (v * d.num % (d.den : Int))
    · rw [if_pos h2, if_pos (hgt_iff.mpr h2)]
    · rw [if_neg h2, if_neg (fun hc => h2 (hgt_iff.mp hc))]

theorem roundToEven_le_intCast (q : ℚ) (n : Int) (h : q ≤ (n : ℚ)) : roundToEven q ≤ n := by
  have hfl : Int.floor q ≤ n := by
    have := Int.floor_le_floor h
    simpa using this
  unfold roundToEven
  by_cases h1 : q - Int.floor q < 1 / 2
  · rw [if_pos h1]
    exact hfl
  · rw [if_neg h1]
    have hfl1 : Int.floor q + 1 ≤ n := by
      by_contra hc
      have hn : n = Int.floor q := by omega
      have hq1 : q ≤ (Int.floor q : ℚ) := by rw [← hn]; exact h
      have hq2 : (Int.floor q : ℚ) ≤ q := Int.floor_le q
      have : q - Int.floor q = 0 := by linarith
      rw [this] at h1
      exact h1 (by norm_num)
    by_cases h2 : 1 / 2 < q - Int.floor q
    · rw [if_pos h2]
      exact hfl1
    · rw [if_neg h2]
      by_cases h3 : Int.floor q % 2 = 0
      · rw [if_pos h3]
        exact hfl
      · rw [if_neg h3]
        exact hfl1

/-- C6: after `reducePuts`, for decay in (0,1] and non-negative bin
counters, every bin's put counter equals round-half-even(counter ×
decay) clamped to `maxPoolPuts`, and in particular is at most its
pre-decay value and at most `maxPoolPuts`. -/
theorem reducePuts_decay (g : BucketPooler) (_hd0 : 0 < g.decay) (hd1 : g.decay ≤ 1)
    (hnn : ∀ bin ∈ g.bins, 0 ≤ bin.puts) :
    g.reducePuts.bins.length = g.bins.length ∧
    ∀ j, j < g.bins.length →
      binPutsAt g.reducePuts.bins j
          = min (roundToEven ((binPutsAt g.bins j : ℚ) * g.decay)) g.maxPoolPuts ∧
      binPutsAt g.reducePuts.bins j ≤ binPutsAt g.bins j ∧
      binPutsAt g.reducePuts.bins j ≤ g.maxPoolPuts := by
  constructor
  · simp [BucketPooler.reducePuts]
  · intro j hj
    have hmap : g.reducePuts.bins = g.bins.map (fun bin =>
        { bin with puts := min (roundToEvenMul bin.puts g.decay) g.maxPoolPuts }) := rfl
    have hj' : j < (g.bins.map (fun bin =>
        { bin with puts := min (roundToEvenMul bin.puts g.decay) g.maxPoolPuts })).length := by
      simpa using hj
    have hentry : binPutsAt g.reducePuts.bins j
        = min (roundToEvenMul (g.bins[j]).puts g.decay) g.maxPoolPuts := by
      rw [hmap]
      unfold binPutsAt
      rw [List.getD_eq_getElem _ emptyBin hj']
      simp
    have hb : binPutsAt g.bins j = (g.bins[j]).puts := by
      unfold binPutsAt
      rw [List.getD_eq_getElem _ emptyBin hj]
    have hv : 0 ≤ (g.bins[j]).puts := hnn _ (List.getElem_mem hj)
    have hrle : roundToEven (((g.bins[j]).puts : ℚ) * g.decay) ≤ (g.bins[j]).puts := by
      apply roundToEven_le_intCast
      calc ((g.bins[j]).puts : ℚ) * g.decay
          ≤ ((g.bins[j]).puts : ℚ) * 1 :=
            mul_le_mul_of_nonneg_left hd1 (by exact_mod_cast hv)
        _ = ((g.bins[j]).puts : ℚ) := mul_one _
    refine ⟨?_, ?_, ?_⟩
    · rw [hentry, hb, roundToEvenMul_eq]
    · rw [hentry, hb, roundToEvenMul_eq]
      exact le_trans (min_le_left _ _) hrle
    · rw [hentry]
      exact min_le_right _ _

/-- Witness for C6 on a pooler with one bin holding counter 3, decay
1/2 and maximum 100000. -/
theorem reducePuts_decay_witness :
    (BucketPooler.reducePuts
        ⟨⟨[⟨4, [], 0, 0⟩], 0, [], []⟩, 1000, 100000, Rat.divInt 1 2, 4,
          [⟨3, 0, 0, 0, 0⟩], 0, -9⟩).bins.length = [HistoBin.mk 3 0 0 0 0].length ∧
    ∀ j, j < [HistoBin.mk 3 0 0 0 0].length →
      binPutsAt (BucketPooler.reducePuts
          ⟨⟨[⟨4, [], 0, 0⟩], 0, [], []⟩, 1000, 100000, Rat.divInt 1 2, 4,
            [⟨3, 0, 0, 0, 0⟩], 0, -9⟩).bins j
          = min (roundToEven ((binPutsAt [HistoBin.mk 3 0 0 0 0] j : ℚ) * Rat.divInt 1 2))
              100000 ∧
      binPutsAt (BucketPooler.reducePuts
          ⟨⟨[⟨4, [], 0, 0⟩], 0, [], []⟩, 1000, 100000, Rat.divInt 1 2, 4,
            [⟨3, 0, 0, 0, 0⟩], 0, -9⟩).bins j
          ≤ binPutsAt [HistoBin.mk 3 0 0 0 0] j ∧
      binPutsAt (BucketPooler.reducePuts
          ⟨⟨[⟨4, [], 0, 0⟩], 0, [], []⟩, 1000, 100000, Rat.divInt 1 2, 4,
            [⟨3, 0, 0, 0, 0⟩], 0, -9⟩).bins j
          ≤ 100000 :=
  reducePuts_decay
    ⟨⟨[⟨4, [], 0, 0⟩], 0, [], []⟩, 1000, 100000, Rat.divInt 1 2, 4,
      [⟨3, 0, 0, 0, 0⟩], 0, -9⟩ (by decide) (by decide) (by decide)

theorem binsModify_eq_some (bins : List HistoBin) (i : Nat) (f : HistoBin → HistoBin)
    (h : i < bins.length) : binsModify bins i f = some (binBump bins i f) := by
  unfold binsModify binBump
  simp [h]

/-- C4 (amended): `BucketPooler.Put` of a non-nil buffer resolving to a
bin triggers default-bucket recomputation and bin decay exactly when
the incremented global counter `inc = puts + 1` is not a positive value
different from `chooseInc` — that is, when `inc ≤ 0` (the ramp: the
counter starts at −9, so each of the first nine puts triggers, not only
counts 1/10/100) or `inc = chooseInc` (and only then the counter resets
to 0).  In either case the buffer is then forwarded to the underlying
pool's `Put`. -/
theorem pooler_put_trigger (g : BucketPooler) (b : Buf) (idx : Nat) (sp : SizedPool)
    (hfind : findPool g.pool.pools (b.len : Int) = some (idx, sp))
    (hidx : idx < g.bins.length) :
    BucketPooler.Put g (some b) =
      (g.pool.Put (some b)).map (fun p' =>
        if 0 < g.puts + 1 ∧ g.puts + 1 ≠ g.chooseInc then
          { g with
            pool := p'
            bins := binBump g.bins idx (fun bin => { bin with puts := bin.puts + 1 })
            puts := g.puts + 1 }
        else
          { g with
            pool := p'
            bins := (binBump g.bins idx (fun bin => { bin with puts := bin.puts + 1 })).map
              (fun bin =>
                { bin with puts := min (roundToEvenMul bin.puts g.decay) g.maxPoolPuts })
            defIdx := chooseScan
              (binBump g.bins idx (fun bin => { bin with puts := bin.puts + 1 })) 0 (-1) 0
            puts := if 0 < g.puts + 1 then 0 else g.puts + 1 }) := by
  by_cases hcond : 0 < g.puts + 1 ∧ g.puts + 1 ≠ g.chooseInc
  · simp only [BucketPooler.Put, hfind, binsModify_eq_some _ _ _ hidx, if_pos hcond]
  · simp only [BucketPooler.Put, hfind, binsModify_eq_some _ _ _ hidx, if_neg hcond,
      BucketPooler.chooseDefPool, BucketPooler.reducePuts]
    by_cases h0 : 0 < g.puts + 1
    · simp only [if_pos h0]
    · simp only [if_neg h0]

/-- Witness for the amended C4: the first put on a fresh pooler (counter
−9, incremented to −8 ≤ 0) triggers, and the counter is not reset. -/
theorem pooler_put_trigger_witness :
    (BucketPooler.Put (BucketPool.Pooler ⟨[⟨4, [], 0, 0⟩], 0, [], []⟩ defaultPoolerOptions)
        (some ⟨3, 3⟩)).map (fun g => g.puts) = some (-8) := by
  rw [pooler_put_trigger (BucketPool.Pooler ⟨[⟨4, [], 0, 0⟩], 0, [], []⟩ defaultPoolerOptions)
    ⟨3, 3⟩ 0 ⟨4, [], 0, 0⟩ (by decide) (by decide)]
  decide

/-- C4 counterexample: on a fresh pooler (default options, so
`chooseInc = 1000`) over the single bucket `[4]`, release a length-3
buffer twice.  The second put is global put count 2 — not 1, 10, 100,
and the counter (−9 → −7) never reached `chooseInc` — yet recomputation
and decay run: the bin counter, bumped to 1 on each put, is halved back
to `roundToEven(1/2) = 0` both times, so after two puts it is 0 (it
would be 1 had the second put not triggered decay).  This contradicts
the claim that recomputation happens only at counts 1/10/100 of the
first cycle or at `chooseInc`. -/
theorem pooler_put_ramp_counterexample :
    ((newBucketFull [4]).map (fun p => p.Pooler defaultPoolerOptions)).bind
        (fun g0 => (g0.Put (some ⟨3, 3⟩)).bind
        (fun g1 => (g1.Put (some ⟨3, 3⟩)).map
        (fun g2 => (g2.chooseInc, g2.puts, binPutsAt g2.bins 0, g2.defIdx))))
      = some (1000, -7, 0, 0) := by
  decide

theorem firstHitAux_none_of_past_end (g : BucketPooler) :
    ∀ (fuel i : Nat), g.bins.length ≤ g.defIdx + i → firstHitAux g fuel i = none := by
  intro fuel
  induction fuel with
  | zero => intro i _; rfl
  | succ fuel ih =>
      intro i hpast
      have hbb : bucketHasBuf g (g.defIdx + i) = false := by
        unfold bucketHasBuf
        simp [Nat.not_lt.mpr hpast]
      unfold firstHitAux
      rw [hbb]
      simp only [Bool.false_eq_true, if_false]
      exact ih (i + 1) (by omega)

theorem firstHitAux_some_hasBuf (g : BucketPooler) :
    ∀ (fuel i j : Nat), firstHitAux g fuel i = some j →
      bucketHasBuf g (g.defIdx + j) = true := by
  intro fuel
  induction fuel with
  | zero => intro i j h; simp [firstHitAux] at h
  | succ fuel ih =>
      intro i j h
      unfold firstHitAux at h
      by_cases hbb : bucketHasBuf g (g.defIdx + i) = true
      · rw [if_pos hbb] at h
        obtain rfl : i = j := by simpa using h
        exact hbb
      · rw [if_neg hbb] at h
        exact ih (i + 1) j h

theorem getLoop_eq (g : BucketPooler) (hlen : g.pool.pools.length = g.bins.length) :
    ∀ (fuel i : Nat),
      getLoop g fuel i =
        match firstHitAux g fuel i with
        | none => some none
        | some j =>
          match g.pool.pools.get? (g.defIdx + j) with
          | none => none
          | some sp =>
            match sp.freeList with
            | [] => none
            | b0 :: rest =>
              match (if 0 < j then
                  (binsModify g.bins (g.defIdx + j)
                      (fun bin => { bin with hitsLookahead := bin.hitsLookahead + 1 })).bind
                    (fun bs => binsModify bs g.defIdx
                      (fun bin => { bin with missesLookahead := bin.missesLookahead + 1 }))
                else some g.bins) with
              | none => none
              | some bs =>
                match binsModify bs (g.defIdx + j)
                    (fun bin => { bin with hits := bin.hits + 1 }) with
                | none => none
                | some bs' =>
                  some (some (b0.grow 0,
                    { g with
                      pool := { g.pool with
                        pools := g.pool.pools.set (g.defIdx + j)
                          { sp with freeList := rest, hits := sp.hits + 1 } }
                      bins := bs' })) := by
  intro fuel
  induction fuel with
  | zero => intro i; rfl
  | succ fuel ih =>
      intro i
      by_cases hpast : g.bins.length ≤ g.defIdx + i
      · have hbb : bucketHasBuf g (g.defIdx + i) = false := by
          unfold bucketHasBuf
          simp [Nat.not_lt.mpr hpast]
        have hfh : firstHitAux g (fuel + 1) i = none := by
          simp only [firstHitAux, hbb]
          simp only [Bool.false_eq_true, if_false]
          exact firstHitAux_none_of_past_end g fuel (i + 1) (by omega)
        rw [hfh]
        simp only [getLoop]
        rw [if_pos hpast]
      · have hnle : ¬ (g.bins.length ≤ g.defIdx + i) := hpast
        have hin : g.defIdx + i < g.bins.length := by omega
        have hpools : g.defIdx + i < g.pool.pools.length := by omega
        have hsp : g.pool.pools.get? (g.defIdx + i) =
            some (g.pool.pools[g.defIdx + i]) := by
          rw [List.get?_eq_getElem?, List.getElem?_eq_getElem hpools]
        have hguard : ¬ ((g.pool.pools[g.defIdx + i]).size : Int) < 0 := by omega
        cases hfl : (g.pool.pools[g.defIdx + i]).freeList with
        | nil =>
            have hbb : bucketHasBuf g (g.defIdx + i) = false := by
              unfold bucketHasBuf
              rw [hsp]
              simp [hfl]
            have hfh : firstHitAux g (fuel + 1) i = firstHitAux g fuel (i + 1) := by
              simp only [firstHitAux, hbb]
              simp only [Bool.false_eq_true, if_false]
            have hloop : getLoop g (fuel + 1) i = getLoop g fuel (i + 1) := by
              simp only [getLoop, hnle, ite_false, hsp, SizedPool.getNoAlloc, hguard, hfl]
            rw [hfh, hloop]
            exact ih (i + 1)
        | cons b0 rest =>
            have hbb : bucketHasBuf g (g.defIdx + i) = true := by
              unfold bucketHasBuf
              rw [hsp]
              simp [hfl, hin]
            have hfh : firstHitAux g (fuel + 1) i = some i := by
              simp only [firstHitAux, hbb]
              simp
            rw [hfh]
            simp only [getLoop, hnle, ite_false, hsp, SizedPool.getNoAlloc, hguard, hfl]

theorem binBump_length (bins : List HistoBin) (i : Nat) (f : HistoBin → HistoBin) :
    (binBump bins i f).length = bins.length := by
  simp [binBump]

/-- C3: `BucketPooler.Get` scans forward from the current default index
over at most `binChecks` buckets, stopping at the end of the bucket
array, and returns the first buffer found (grown to the request 0): a
hit at offset `i` pops that bucket's free-list head, credits a hit on
that bin, and, when `i > 0`, credits a lookahead-hit on that bin and a
lookahead-miss on the default bin.  When no scanned bucket yields a
buffer, `Get` allocates a fresh buffer of the default bucket's size and
credits a miss on the default bin (`firstHitOffset` is the spec-side
description of the scan). -/
theorem pooler_get_lookahead (g : BucketPooler)
    (hlen : g.pool.pools.length = g.bins.length) (hdef : g.defIdx < g.bins.length) :
    (∀ i, firstHitOffset g = some i →
      ∃ sp b rest,
        g.pool.pools.get? (g.defIdx + i) = some sp ∧
        sp.freeList = b :: rest ∧
        g.Get = some (b.grow 0,
          { g with
            pool := { g.pool with
              pools := g.pool.pools.set (g.defIdx + i)
                { sp with freeList := rest, hits := sp.hits + 1 } }
            bins := binBump
              (if 0 < i then
                binBump (binBump g.bins (g.defIdx + i)
                    (fun bin => { bin with hitsLookahead := bin.hitsLookahead + 1 }))
                  g.defIdx (fun bin => { bin with missesLookahead := bin.missesLookahead + 1 })
              else g.bins)
              (g.defIdx + i) (fun bin => { bin with hits := bin.hits + 1 }) })) ∧
    (firstHitOffset g = none →
      ∃ sp,
        g.pool.pools.get? g.defIdx = some sp ∧
        g.Get = some (⟨0, sp.size⟩,
          { g with
            pool := { g.pool with
              pools := g.pool.pools.set g.defIdx
                { sp with misses := sp.misses + 1 } }
            bins := binBump g.bins g.defIdx
              (fun bin => { bin with misses := bin.misses + 1 }) })) := by
  constructor
  · intro i hfh
    have hbb : bucketHasBuf g (g.defIdx + i) = true :=
      firstHitAux_some_hasBuf g g.binChecks 0 i hfh
    unfold bucketHasBuf at hbb
    simp only [Bool.and_eq_true, decide_eq_true_eq] at hbb
    obtain ⟨hin, hrest⟩ := hbb
    cases hget : g.pool.pools.get? (g.defIdx + i) with
    | none => rw [hget] at hrest; simp at hrest
    | some sp =>
        rw [hget] at hrest
        simp only [Bool.not_eq_true', List.isEmpty_eq_false] at hrest
        cases hfl0 : sp.freeList with
        | nil => exact absurd hfl0 hrest
        | cons b rest =>
            refine ⟨sp, b, rest, rfl, hfl0, ?_⟩
            unfold BucketPooler.Get
            rw [getLoop_eq g hlen g.binChecks 0]
            rw [show firstHitAux g g.binChecks 0 = some i from hfh]
            have hdef' : g.defIdx <
                (binBump g.bins (g.defIdx + i)
                  (fun bin => { bin with hitsLookahead := bin.hitsLookahead + 1 })).length := by
              rw [binBump_length]
              exact hdef
            have hin2 : g.defIdx + i <
                (binBump (binBump g.bins (g.defIdx + i)
                    (fun bin => { bin with hitsLookahead := bin.hitsLookahead + 1 }))
                  g.defIdx
                  (fun bin => { bin with missesLookahead := bin.missesLookahead + 1 })).length := by
              rw [binBump_length, binBump_length]
              exact hin
            by_cases hi : 0 < i
            · simp only [hget, hfl0, if_pos hi,
                binsModify_eq_some _ _ _ hin, Option.some_bind,
                binsModify_eq_some _ _ _ hdef',
                binsModify_eq_some _ _ _ hin2]
            · simp only [hget, hfl0, if_neg hi,
                binsModify_eq_some _ _ _ hin]
  · intro hfh
    have hpools : g.defIdx < g.pool.pools.length := by omega
    have hget : g.pool.pools.get? g.defIdx = some (g.pool.pools[g.defIdx]) := by
      rw [List.get?_eq_getElem?, List.getElem?_eq_getElem hpools]
    refine ⟨g.pool.pools[g.defIdx], hget, ?_⟩
    unfold BucketPooler.Get
    rw [getLoop_eq g hlen g.binChecks 0]
    rw [show firstHitAux g g.binChecks 0 = none from hfh]
    have hguard : ¬ ((g.pool.pools[g.defIdx]).size : Int) < 0 := by omega
    simp only [hget, SizedPool.allocate, hguard, ite_false,
      binsModify_eq_some _ _ _ hdef]
    simp [makeSizedBytes]

/-- Witness for C3 on a pooler whose default (only) bucket holds one
pooled buffer: the scan hits at offset 0. -/
theorem pooler_get_lookahead_witness :
    ∃ sp b rest g',
      (BucketPooler.mk ⟨[⟨4, [⟨0, 3⟩], 0, 0⟩], 0, [], []⟩ 1000 100000 (Rat.divInt 1 2) 4
          [⟨0, 0, 0, 0, 0⟩] 0 (-9)).pool.pools.get?
        ((BucketPooler.mk ⟨[⟨4, [⟨0, 3⟩], 0, 0⟩], 0, [], []⟩ 1000 100000 (Rat.divInt 1 2) 4
          [⟨0, 0, 0, 0, 0⟩] 0 (-9)).defIdx + 0) = some sp ∧
      sp.freeList = b :: rest ∧
      (BucketPooler.mk ⟨[⟨4, [⟨0, 3⟩], 0, 0⟩], 0, [], []⟩ 1000 100000 (Rat.divInt 1 2) 4
          [⟨0, 0, 0, 0, 0⟩] 0 (-9)).Get = some (b.grow 0, g') := by
  obtain ⟨sp, b, rest, h1, h2, h3⟩ :=
    (pooler_get_lookahead
      (BucketPooler.mk ⟨[⟨4, [⟨0, 3⟩], 0, 0⟩], 0, [], []⟩ 1000 100000 (Rat.divInt 1 2) 4
        [⟨0, 0, 0, 0, 0⟩] 0 (-9)) (by decide) (by decide)).1 0 (by decide)
  exact ⟨sp, b, rest, _, h1, h2, h3⟩


theorem poolInv_over (p : BucketPool) (ov : Int) (isPut : Bool) (h : PoolInv p) :
    PoolInv (p.over ov isPut) := by
  unfold BucketPool.over PoolInv
  cases isPut <;> simpa using h

theorem poolInv_set (p : BucketPool) (i : Nat) (sp' : SizedPool) (h : PoolInv p)
    (hsp' : ∀ b ∈ sp'.freeList, b.len = 0 ∧ b.cap ≤ sp'.size) :
    PoolInv { p with pools := p.pools.set i sp' } := by
  intro x hx b hb
  rcases List.mem_or_eq_of_mem_set hx with hmem | rfl
  · exact h x hmem b hb
  · exact hsp' b hb

theorem sizedPool_get_eq (sp : SizedPool) (c : Int) (hc : ¬ (sp.size : Int) < c) :
    sp.get c =
      match sp.freeList with
      | [] => some (if c ≤ 0 then makeSizedBytes (sp.size : Int) else makeSizedBytes c,
          { sp with misses := sp.misses + 1 })
      | b0 :: rest => some (b0.grow c, { sp with freeList := rest, hits := sp.hits + 1 }) := by
  unfold SizedPool.get SizedPool.getNoAlloc SizedPool.allocate
  cases hfl : sp.freeList with
  | nil => simp [hc, hfl]
  | cons b0 rest => simp [hc, hfl]

theorem poolInv_get (sp : SizedPool) (c : Int) (b : Buf) (sp' : SizedPool)
    (hmem : ∀ b' ∈ sp.freeList, b'.len = 0 ∧ b'.cap ≤ sp.size)
    (hget : sp.get c = some (b, sp')) :
    ∀ b' ∈ sp'.freeList, b'.len = 0 ∧ b'.cap ≤ sp'.size := by
  by_cases hc : (sp.size : Int) < c
  · exfalso
    unfold SizedPool.get SizedPool.getNoAlloc at hget
    simp [hc] at hget
  · rw [sizedPool_get_eq sp c hc] at hget
    cases hfl : sp.freeList with
    | nil =>
        rw [hfl] at hget
        simp only [Option.some.injEq, Prod.mk.injEq] at hget
        obtain ⟨-, rfl⟩ := hget
        intro b' hb'
        exact hmem b' (hfl ▸ hb')
    | cons b0 rest =>
        rw [hfl] at hget
        simp only [Option.some.injEq, Prod.mk.injEq] at hget
        obtain ⟨-, rfl⟩ := hget
        intro b' hb'
        exact hmem b' (by rw [hfl]; exact List.mem_cons_of_mem _ hb')

theorem poolInv_getGrown (p : BucketPool) (c : Int) (b : Buf) (p' : BucketPool)
    (h : PoolInv p) (hg : p.GetGrown c = some (b, p')) : PoolInv p' := by
  unfold BucketPool.GetGrown at hg
  split at hg
  · simp only [Option.some.injEq, Prod.mk.injEq] at hg
    obtain ⟨-, rfl⟩ := hg
    exact poolInv_over p c false h
  · rename_i i sp hf
    split at hg
    · exact absurd hg (by simp)
    · rename_i b2 sp' hget
      simp only [Option.some.injEq, Prod.mk.injEq] at hg
      obtain ⟨-, rfl⟩ := hg
      have hspmem : sp ∈ p.pools :=
        List.get?_mem (findPool_some_facts p.pools c i sp hf).1
      exact poolInv_set p i sp' h (poolInv_get sp c b2 sp' (h sp hspmem) hget)

theorem poolInv_getFilled (p : BucketPool) (c : Int) (b : Buf) (p' : BucketPool)
    (h : PoolInv p) (hg : p.GetFilled c = some (b, p')) : PoolInv p' := by
  unfold BucketPool.GetFilled at hg
  split at hg
  · split at hg
    · exact absurd hg (by simp)
    · simp only [Option.some.injEq, Prod.mk.injEq] at hg
      obtain ⟨-, rfl⟩ := hg
      exact poolInv_over p c false h
  · rename_i i sp hf
    split at hg
    · exact absurd hg (by simp)
    · rename_i b2 sp' hget
      split at hg
      · exact absurd hg (by simp)
      · simp only [Option.some.injEq, Prod.mk.injEq] at hg
        obtain ⟨-, rfl⟩ := hg
        have hspmem : sp ∈ p.pools :=
          List.get?_mem (findPool_some_facts p.pools c i sp hf).1
        exact poolInv_set p i sp' h (poolInv_get sp c b2 sp' (h sp hspmem) hget)

theorem poolInv_put (p : BucketPool) (ob : Option Buf) (p' : BucketPool)
    (h : PoolInv p) (hg : p.Put ob = some p') : PoolInv p' := by
  cases ob with
  | none =>
      have : p = p' := by
        simpa [BucketPool.Put] using hg
      exact this ▸ h
  | some b =>
      have hput_eq : p.Put (some b) =
          match findPool p.pools (b.cap : Int) with
          | none => some (p.over (b.cap : Int) true)
          | some (i, sp) =>
            match sp.put b with
            | none => none
            | some sp' => some { p with pools := p.pools.set i sp' } := rfl
      rw [hput_eq] at hg
      split at hg
      · simp only [Option.some.injEq] at hg
        exact hg ▸ poolInv_over p (b.cap : Int) true h
      · rename_i i sp hf
        obtain ⟨hget, hle⟩ := findPool_some_facts p.pools (b.cap : Int) i sp hf
        have hcap : b.cap ≤ sp.size := by exact_mod_cast hle
        have hput : sp.put b = some { sp with freeList := ⟨0, b.cap⟩ :: sp.freeList } := by
          unfold SizedPool.put
          simp [Nat.not_lt.mpr hcap]
        rw [hput] at hg
        simp only [Option.some.injEq] at hg
        subst hg
        refine poolInv_set p i _ h ?_
        intro b' hb'
        rcases List.mem_cons.mp hb' with rfl | hmem
        · exact ⟨rfl, hcap⟩
        · exact h sp (List.get?_mem hget) b' hmem

theorem poolInv_getNoAlloc (sp : SizedPool) (c : Int) (ob : Option Buf) (sp' : SizedPool)
    (hmem : ∀ b' ∈ sp.freeList, b'.len = 0 ∧ b'.cap ≤ sp.size)
    (hget : sp.getNoAlloc c = some (ob, sp')) :
    ∀ b' ∈ sp'.freeList, b'.len = 0 ∧ b'.cap ≤ sp'.size := by
  unfold SizedPool.getNoAlloc at hget
  split at hget
  · simp at hget
  · split at hget
    · simp only [Option.some.injEq, Prod.mk.injEq] at hget
      obtain ⟨-, rfl⟩ := hget
      exact hmem
    · rename_i b0 rest hfl
      simp only [Option.some.injEq, Prod.mk.injEq] at hget
      obtain ⟨-, rfl⟩ := hget
      intro b' hb'
      exact hmem b' (by rw [hfl]; exact List.mem_cons_of_mem _ hb')

theorem poolInv_allocate (sp : SizedPool) (c : Int) (b : Buf) (sp' : SizedPool)
    (hmem : ∀ b' ∈ sp.freeList, b'.len = 0 ∧ b'.cap ≤ sp.size)
    (hget : sp.allocate c = some (b, sp')) :
    ∀ b' ∈ sp'.freeList, b'.len = 0 ∧ b'.cap ≤ sp'.size := by
  unfold SizedPool.allocate at hget
  split at hget
  · simp at hget
  · simp only [Option.some.injEq, Prod.mk.injEq] at hget
    obtain ⟨-, rfl⟩ := hget
    exact hmem

theorem poolInv_getLoop (g : BucketPooler) (hInv : PoolInv g.pool) :
    ∀ (fuel i : Nat) (b : Buf) (g' : BucketPooler),
      getLoop g fuel i = some (some (b, g')) → PoolInv g'.pool := by
  intro fuel
  induction fuel with
  | zero => intro i b g' h; simp [getLoop] at h
  | succ fuel ih =>
      intro i b g' h
      simp only [getLoop] at h
      split at h
      · simp at h
      · split at h
        · simp at h
        · rename_i sp hsp
          split at h
          · simp at h
          · rename_i hna
            exact ih (i + 1) b g' h
          · rename_i b2 sp' hna
            split at h
            · simp at h
            · split at h
              · simp at h
              · simp only [Option.some.injEq, Prod.mk.injEq] at h
                obtain ⟨-, hg'⟩ := h
                rw [← hg']
                exact poolInv_set g.pool _ sp' hInv
                  (poolInv_getNoAlloc sp 0 (some b2) sp'
                    (hInv sp (List.get?_mem hsp)) hna)

theorem binsModify_eq_none (bins : List HistoBin) (i : Nat) (f : HistoBin → HistoBin)
    (h : ¬ i < bins.length) : binsModify bins i f = none := by
  unfold binsModify
  simp [h]

theorem poolInv_poolerGet (g : BucketPooler) (b : Buf) (g' : BucketPooler)
    (hInv : PoolInv g.pool) (h : g.Get = some (b, g')) : PoolInv g'.pool := by
  unfold BucketPooler.Get at h
  split at h
  · simp at h
  · rename_i r hloop
    obtain ⟨b2, g2⟩ := r
    simp only [Option.some.injEq, Prod.mk.injEq] at h
    obtain ⟨-, hg'⟩ := h
    rw [← hg']
    exact poolInv_getLoop g hInv g.binChecks 0 b2 g2 hloop
  · split at h
    · simp at h
    · rename_i sp hsp
      split at h
      · simp at h
      · rename_i b2 sp' halloc
        dsimp only [] at h
        by_cases hdef : g.defIdx < g.bins.length
        · rw [show (binsModify g.bins g.defIdx
              (fun bin => { bin with misses := bin.misses + 1 }))
              = some (binBump g.bins g.defIdx
                (fun bin => { bin with misses := bin.misses + 1 }))
              from binsModify_eq_some _ _ _ hdef] at h
          simp only [Option.some.injEq, Prod.mk.injEq] at h
          obtain ⟨-, hg'⟩ := h
          rw [← hg']
          exact poolInv_set g.pool _ sp' hInv
            (poolInv_allocate sp 0 b2 sp' (hInv sp (List.get?_mem hsp)) halloc)
        · rw [show (binsModify g.bins g.defIdx
              (fun bin => { bin with misses := bin.misses + 1 })) = none
              from binsModify_eq_none _ _ _ hdef] at h
          simp at h

theorem poolInv_poolerPut (g : BucketPooler) (ob : Option Buf) (g' : BucketPooler)
    (hInv : PoolInv g.pool) (h : g.Put ob = some g') : PoolInv g'.pool := by
  cases ob with
  | none =>
      have : g = g' := by simpa [BucketPooler.Put] using h
      exact this ▸ hInv
  | some b =>
      cases hf : findPool g.pool.pools (b.len : Int) with
      | none =>
          simp only [BucketPooler.Put, hf] at h
          cases hp : g.pool.Put (some b) with
          | none => rw [hp] at h; simp at h
          | some p' =>
              rw [hp] at h
              simp only [Option.map_some', Option.some.injEq] at h
              rw [← h]
              exact poolInv_put g.pool (some b) p' hInv hp
      | some x =>
          obtain ⟨idx, sp⟩ := x
          by_cases hidx : idx < g.bins.length
          · by_cases hcond : 0 < g.puts + 1 ∧ g.puts + 1 ≠ g.chooseInc
            · simp only [BucketPooler.Put, hf, binsModify_eq_some _ _ _ hidx,
                if_pos hcond] at h
              cases hp : g.pool.Put (some b) with
              | none => rw [hp] at h; simp at h
              | some p' =>
                  rw [hp] at h
                  simp only [Option.map_some', Option.some.injEq] at h
                  rw [← h]
                  exact poolInv_put g.pool (some b) p' hInv hp
            · simp only [BucketPooler.Put, hf, binsModify_eq_some _ _ _ hidx,
                if_neg hcond, BucketPooler.chooseDefPool, BucketPooler.reducePuts] at h
              by_cases h0 : 0 < g.puts + 1
              · simp only [if_pos h0] at h
                cases hp : g.pool.Put (some b) with
                | none => rw [hp] at h; simp at h
                | some p' =>
                    rw [hp] at h
                    simp only [Option.map_some', Option.some.injEq] at h
                    rw [← h]
                    exact poolInv_put g.pool (some b) p' hInv hp
              · simp only [if_neg h0] at h
                cases hp : g.pool.Put (some b) with
                | none => rw [hp] at h; simp at h
                | some p' =>
                    rw [hp] at h
                    simp only [Option.map_some', Option.some.injEq] at h
                    rw [← h]
                    exact poolInv_put g.pool (some b) p' hInv hp
          · simp only [BucketPooler.Put, hf, binsModify_eq_none _ _ _ hidx] at h
            exact Option.noConfusion h

theorem reachable_poolInv : ∀ g, Reachable g → PoolInv g.pool := by
  intro g hr
  induction hr with
  | init sizes o p hnew =>
      show PoolInv p
      unfold newBucketFull at hnew
      split at hnew
      · simp at hnew
      · simp only [Option.some.injEq] at hnew
        rw [← hnew]
        intro sp hsp b hb
        obtain ⟨s, -, rfl⟩ := List.mem_map.mp hsp
        simp [newSizedPool] at hb
  | getGrown g g' c b hr hstep ih =>
      unfold BucketPooler.GetGrown at hstep
      cases hp : g.pool.GetGrown c with
      | none => rw [hp] at hstep; simp at hstep
      | some r =>
          obtain ⟨b2, p2⟩ := r
          rw [hp] at hstep
          simp only [Option.map_some', Option.some.injEq, Prod.mk.injEq] at hstep
          obtain ⟨-, hg'⟩ := hstep
          rw [← hg']
          exact poolInv_getGrown g.pool c b2 p2 ih hp
  | getFilled g g' c b hr hstep ih =>
      unfold BucketPooler.GetFilled at hstep
      cases hp : g.pool.GetFilled c with
      | none => rw [hp] at hstep; simp at hstep
      | some r =>
          obtain ⟨b2, p2⟩ := r
          rw [hp] at hstep
          simp only [Option.map_some', Option.some.injEq, Prod.mk.injEq] at hstep
          obtain ⟨-, hg'⟩ := hstep
          rw [← hg']
          exact poolInv_getFilled g.pool c b2 p2 ih hp
  | poolPut g b p' hr hwf hstep ih =>
      exact poolInv_put g.pool (some b) p' ih hstep
  | poolerGet g g' b hr hstep ih =>
      exact poolInv_poolerGet g b g' ih hstep
  | poolerPut g g' b hr hwf hstep ih =>
      exact poolInv_poolerPut g (some b) g' ih hstep

/-- C8: in every reachable state, every buffer held in a bucket's
free-list has length 0 and capacity at most that bucket's size; putting
a buffer whose capacity exceeds the bucket's size into a `sizedPool` is
a panic (`none`), exactly when the capacity exceeds the size; and the
free-list invariant is preserved by the get and put operations of the
bucket pool. -/
theorem sizedPool_invariant :
    (∀ g, Reachable g → PoolInv g.pool) ∧
    (∀ (sp : SizedPool) (b : Buf), sp.put b = none ↔ sp.size < b.cap) ∧
    (∀ p c b p', PoolInv p → BucketPool.GetGrown p c = some (b, p') → PoolInv p') ∧
    (∀ p ob p', PoolInv p → BucketPool.Put p ob = some p' → PoolInv p') := by
  refine ⟨reachable_poolInv, ?_, poolInv_getGrown, poolInv_put⟩
  intro sp b
  unfold SizedPool.put
  by_cases hc : sp.size < b.cap
  · simp [hc]
  · simp [hc]

/-- Witness for C8: the invariant holds in the reachable state given by
a freshly constructed pooler over sizes `[4]`. -/
theorem sizedPool_invariant_witness :
    PoolInv (BucketPool.Pooler ⟨[⟨4, [], 0, 0⟩], 0, [], []⟩ defaultPoolerOptions).pool :=
  sizedPool_invariant.1 _
    (Reachable.init [4] defaultPoolerOptions ⟨[⟨4, [], 0, 0⟩], 0, [], []⟩ (by decide))
